import Mathlib

/-!
Shallow embedding of the sweeper duplicate-file finder
(src/sweeper/sweeper.py) together with proofs about its behaviour.

File contents are modeled as byte lists and hash algorithms as functions
from content to an opaque digest value; reading a file in blocks and
updating the digest incrementally digests exactly the whole byte stream,
so a block size parameter would not influence any digest.  The scanner's
insertion-ordered defaultdict is modeled as an association list, file
enumeration as the resulting list of canonical paths, and the filesystem
effects of the remove and move actions as explicit effect traces.
-/

namespace Sweeper

/-- Byte content of a file. -/
abbrev Content := List Nat

/-- A canonical (realpath-resolved) file path. -/
abbrev Path := String

/-- A digest value; hexdigest strings are modeled as opaque tokens. -/
abbrev Digest := Nat

/-- A secure hash algorithm, as a function of the full byte content. -/
abbrev HashAlg := Content → Digest

/-- tuple(hexmds): one digest per configured algorithm, in list order. -/
abbrev Fingerprint := List Digest

/-- The defaultdict(list) from fingerprints to file lists, modeled as an
insertion-ordered association list. -/
abbrev Index := List (Fingerprint × List Path)

/-- _filehash (sweeper.py lines 93-102): the digest of a file's full
content under one algorithm. -/
def _filehash (fs : Path → Content) (hashalg : HashAlg) (fpath : Path) : Digest :=
  hashalg (fs fpath)

/-- hexmd = tuple([_filehash(fpath, h, block_size) for h in hashalgs])
(lines 195-196 and 252-253). -/
def fingerprintOf (fs : Path → Content) (hashalgs : List HashAlg) (fpath : Path) :
    Fingerprint :=
  hashalgs.map (fun h => _filehash fs h fpath)

/-- Loop of _uniq_list (lines 105-110): result accumulates each element
that is not already present, preserving first-occurrence order. -/
def _uniq_loop {α : Type} [DecidableEq α] (result : List α) : List α → List α
  | [] => result
  | foo :: rest =>
    if foo ∈ result then _uniq_loop result rest
    else _uniq_loop (result ++ [foo]) rest

/-- _uniq_list (lines 105-110). -/
def _uniq_list {α : Type} [DecidableEq α] (list_ : List α) : List α :=
  _uniq_loop [] list_

/-- _fbequal (lines 146-162): the byte-by-byte comparison loop.  Each
iteration reads one byte from each file; a mismatch (including end-of-file
on exactly one side) returns false and simultaneous end-of-file returns
true. -/
def _fbequal : Content → Content → Bool
  | [], [] => true
  | [], _ :: _ => false
  | _ :: _, [] => false
  | b1 :: r1, b2 :: r2 => if b1 = b2 then _fbequal r1 r2 else false

/-- Reading dups[hexmd]: the value of the first entry for the key, or the
empty list for an absent key (defaultdict(list)). -/
def lookupGroup : Index → Fingerprint → List Path
  | [], _ => []
  | (k1, v) :: rest, k => if k1 = k then v else lookupGroup rest k

/-- Whether the key is present in the dict. -/
def hasKey : Index → Fingerprint → Bool
  | [], _ => false
  | (k1, _) :: rest, k => if k1 = k then true else hasKey rest k

/-- Reading dups[hexmd] on a defaultdict also inserts the key, bound to an
empty list, when it is absent. -/
def touchKey (dups : Index) (k : Fingerprint) : Index :=
  if hasKey dups k then dups else dups ++ [(k, [])]

/-- dups[hexmd].append(fpath): append to the entry for the key, creating
the entry when it is absent. -/
def appendGroup : Index → Fingerprint → Path → Index
  | [], k, fpath => [(k, [fpath])]
  | (k1, v) :: rest, k, fpath =>
    if k1 = k then (k1, v ++ [fpath]) :: rest
    else (k1, v) :: appendGroup rest k fpath

/-- The files_equals decision (lines 198-216 and 256-267): with safe mode
off the file is accepted unconditionally; with safe mode on it is accepted
when the group is empty, and otherwise exactly when it is byte-equal to
some current group member. -/
def files_equals (fs : Path → Content) (safe_mode : Bool)
    (dup_files : List Path) (fpath : Path) : Bool :=
  if safe_mode then
    match dup_files with
    | [] => true
    | _ :: _ => dup_files.any (fun f => _fbequal (fs f) (fs fpath))
  else true

/-- Processing of one enumerated file in the batch loop of file_dups
(lines 189-220): compute the fingerprint, read dups[hexmd] (creating the
key), and append the file when it is accepted. -/
def dupsStep (fs : Path → Content) (hashalgs : List HashAlg) (safe_mode : Bool)
    (dups : Index) (fpath : Path) : Index :=
  if files_equals fs safe_mode (lookupGroup dups (fingerprintOf fs hashalgs fpath)) fpath
  then
    appendGroup (touchKey dups (fingerprintOf fs hashalgs fpath))
      (fingerprintOf fs hashalgs fpath) fpath
  else touchKey dups (fingerprintOf fs hashalgs fpath)

/-- The batch scan loop over the enumerated files. -/
def scan (fs : Path → Content) (hashalgs : List HashAlg) (safe_mode : Bool) :
    Index → List Path → Index
  | dups, [] => dups
  | dups, fpath :: rest =>
    scan fs hashalgs safe_mode (dupsStep fs hashalgs safe_mode dups fpath) rest

/-- Building the result dict (lines 224-229): keep each group's unique
member list and drop every fingerprint with at most one unique member. -/
def finalize (dups : Index) : Index :=
  (dups.map (fun kv => (kv.1, _uniq_list kv.2))).filter
    (fun kv => decide (1 < kv.2.length))

/-- file_dups (lines 165-229) after enumeration: scan the enumerated file
list, then finalize. -/
def file_dups_scan (fs : Path → Content) (files : List Path)
    (hashalgs : List HashAlg) (safe_mode : Bool) : Index :=
  finalize (scan fs hashalgs safe_mode [] files)

/-- The in-place canonicalization loop over topdirs (lines 174-176 and
246-248): topdirs[i] = os.path.realpath(topdirs[i]) for every index. -/
def resolve_topdirs (realpath : String → String) : List String → List String
  | [] => []
  | d :: rest => realpath d :: resolve_topdirs realpath rest

/-- file_dups including its entry effect: the caller's topdirs list is
canonicalized in place before walking, so the pair carries the scan result
together with the caller-visible value of topdirs after the call.  The
directory walk over the resolved top directories is a parameter. -/
def file_dups (realpath : String → String) (walk : List String → List Path)
    (fs : Path → Content) (topdirs : List String) (hashalgs : List HashAlg)
    (safe_mode : Bool) : Index × List String :=
  (file_dups_scan fs (walk (resolve_topdirs realpath topdirs)) hashalgs safe_mode,
   resolve_topdirs realpath topdirs)

/-- Processing of one enumerated file in file_dups_immediate
(lines 251-271): the same index update as the batch loop, plus the yielded
tuple when the accepted file's group already had a member
(had_dup_list).  The yielded member list is dups[hexmd] after the append,
so it includes the newly found file. -/
def immediateStep (fs : Path → Content) (hashalgs : List HashAlg) (safe_mode : Bool)
    (dups : Index) (fpath : Path) : Index × List (Path × Fingerprint × List Path) :=
  if files_equals fs safe_mode (lookupGroup dups (fingerprintOf fs hashalgs fpath)) fpath
  then
    (appendGroup (touchKey dups (fingerprintOf fs hashalgs fpath))
       (fingerprintOf fs hashalgs fpath) fpath,
     if !(lookupGroup dups (fingerprintOf fs hashalgs fpath)).isEmpty
     then
       [(fpath, fingerprintOf fs hashalgs fpath,
         lookupGroup
           (appendGroup (touchKey dups (fingerprintOf fs hashalgs fpath))
             (fingerprintOf fs hashalgs fpath) fpath)
           (fingerprintOf fs hashalgs fpath))]
     else [])
  else (touchKey dups (fingerprintOf fs hashalgs fpath), [])

/-- The generator loop of file_dups_immediate: the list of yielded
tuples, in yield order. -/
def immediateScan (fs : Path → Content) (hashalgs : List HashAlg) (safe_mode : Bool) :
    Index → List Path → List (Path × Fingerprint × List Path)
  | _, [] => []
  | dups, fpath :: rest =>
    (immediateStep fs hashalgs safe_mode dups fpath).2
      ++ immediateScan fs hashalgs safe_mode
          (immediateStep fs hashalgs safe_mode dups fpath).1 rest

/-- file_dups_immediate (lines 232-271) after enumeration. -/
def file_dups_immediate_scan (fs : Path → Content) (files : List Path)
    (hashalgs : List HashAlg) (safe_mode : Bool) :
    List (Path × Fingerprint × List Path) :=
  immediateScan fs hashalgs safe_mode [] files

/-- file_dups_immediate including its entry effect on the caller's topdirs
list, analogous to file_dups. -/
def file_dups_immediate (realpath : String → String) (walk : List String → List Path)
    (fs : Path → Content) (topdirs : List String) (hashalgs : List HashAlg)
    (safe_mode : Bool) : List (Path × Fingerprint × List Path) × List String :=
  (file_dups_immediate_scan fs (walk (resolve_topdirs realpath topdirs)) hashalgs safe_mode,
   resolve_topdirs realpath topdirs)

/-- iter_file_dups (lines 345-356) with the default rethash=False: the
member lists of the batch result, in insertion order. -/
def iter_file_dups (fs : Path → Content) (files : List Path)
    (hashalgs : List HashAlg) (safe_mode : Bool) : List (List Path) :=
  (file_dups_scan fs files hashalgs safe_mode).map (fun kv => kv.2)

/-- f.startswith(keep_prefix): the prefix test on the character
sequences of the two path strings. -/
def startswith (keep_pref f : Path) : Bool :=
  keep_pref.data.isPrefixOf f.data

/-- The keep-prefix loop of _extract_files_for_action (lines 279-286):
every file except the first prefix match is appended to result; the flag
records whether a match was seen. -/
def keepLoop (keep_pref : String) (found : Bool) : List Path → Bool × List Path
  | [] => (found, [])
  | f :: rest =>
    if startswith keep_pref f && !found then keepLoop keep_pref true rest
    else ((keepLoop keep_pref found rest).1, f :: (keepLoop keep_pref found rest).2)

/-- The extras chosen for one group (lines 279-288).  none models Python
None; Python's truth test also sends the empty string to the fallback.
When no file matches the prefix, the fallback keeps the first file and
the extras are files[1:]. -/
def plan_extras (keep_pref : Option String) (files : List Path) : List Path :=
  match keep_pref with
  | none => files.drop 1
  | some s =>
    if s = "" then files.drop 1
    else if (keepLoop s false files).1 then (keepLoop s false files).2
    else files.drop 1

/-- _extract_files_for_action (lines 274-289): each finalized group paired
with its planned extras. -/
def _extract_files_for_action (fs : Path → Content) (files : List Path)
    (hashalgs : List HashAlg) (keep_pref : Option String) (safe_mode : Bool) :
    List (List Path × List Path) :=
  (iter_file_dups fs files hashalgs safe_mode).map
    (fun l => (l, plan_extras keep_pref l))

/-- Observable console and filesystem effects of the action functions. -/
inductive Effect where
  | msg : String → Effect
  | remove : Path → Effect
  | move : Path → String → Effect
  | mkdir : String → Effect
deriving DecidableEq

/-- The error taxonomy of the design.  The raise at line 331 (the move
destination exists but is not a directory) is its configuration-error
case. -/
inductive SweeperError where
  | configError : String → SweeperError
deriving DecidableEq

/-- Concatenation of the per-item effect lists of a loop. -/
def concatMap {α β : Type} (f : α → List β) : List α → List β
  | [] => []
  | a :: rest => f a ++ concatMap f rest

/-- rm_file_dups (lines 292-313) as an effect trace.  Under simulate (or
verbose) the intended action is printed; the removal itself is performed
only when simulate is off. -/
def rm_file_dups (fs : Path → Content) (files : List Path) (hashalgs : List HashAlg)
    (simulate : Bool) (keep_pref : Option String) (verbose safe_mode : Bool) :
    List Effect :=
  concatMap
    (fun de =>
      (if simulate || verbose
       then [Effect.msg ("found duplicates: " ++ String.intercalate " " de.1)]
       else [])
        ++ concatMap
            (fun f =>
              (if simulate || verbose then [Effect.msg ("rm " ++ f)] else [])
                ++ (if simulate then [] else [Effect.remove f]))
            de.2)
    (_extract_files_for_action fs files hashalgs keep_pref safe_mode)

/-- mv_file_dups (lines 316-342) as an effect trace plus an optional
error.  dest_exists and dest_isdir model os.path.exists and os.path.isdir
for the destination at entry.  An absent destination is created first,
unconditionally, before the simulate flag is ever consulted; an existing
non-directory destination raises before any file is touched. -/
def mv_file_dups (fs : Path → Content) (files : List Path) (hashalgs : List HashAlg)
    (dest_dir : String) (dest_exists dest_isdir : Bool) (simulate : Bool)
    (keep_pref : Option String) (verbose safe_mode : Bool) :
    List Effect × Option SweeperError :=
  if (if dest_exists then dest_isdir else true) then
    ((if dest_exists then [] else [Effect.mkdir dest_dir])
      ++ concatMap
          (fun de =>
            (if simulate || verbose
             then [Effect.msg ("found duplicates: " ++ String.intercalate " " de.1)]
             else [])
              ++ concatMap
                  (fun f =>
                    (if simulate || verbose
                     then [Effect.msg ("mv " ++ f ++ " to " ++ dest_dir)]
                     else [])
                      ++ (if simulate then [] else [Effect.move f dest_dir]))
                  de.2)
          (_extract_files_for_action fs files hashalgs keep_pref safe_mode),
     none)
  else
    ((if dest_exists then [] else [Effect.mkdir dest_dir]),
     some (SweeperError.configError (dest_dir ++ " is not a directory")))

/-- Fixture: every path has the same one-byte content. -/
def fsZero : Path → Content := fun _ => [0]

/-- Fixture: path a has content [0]; every other path has content [1]. -/
def fsTwo : Path → Content := fun p => if p = "a" then [0] else [1]

/-- Fixture: a constant hash algorithm, so all contents collide. -/
def algConst : HashAlg := fun _ => 7

/-- Fixture: agrees with fsZero everywhere except at path c. -/
def fsZeroC : Path → Content := fun p => if p = "c" then [9] else [0]

theorem fbequal_eq_iff : ∀ c1 c2 : Content, _fbequal c1 c2 = true ↔ c1 = c2
  | [], [] => by simp [_fbequal]
  | [], _ :: _ => by simp [_fbequal]
  | _ :: _, [] => by simp [_fbequal]
  | b1 :: r1, b2 :: r2 => by
    simp only [_fbequal]
    by_cases h : b1 = b2
    · subst h
      rw [if_pos rfl, fbequal_eq_iff r1 r2]
      simp
    · rw [if_neg h]
      simp [h]

theorem fbequal_refl (c : Content) : _fbequal c c = true :=
  (fbequal_eq_iff c c).mpr rfl

theorem ne_of_fbequal_false {c1 c2 : Content} (h : _fbequal c1 c2 = false) :
    c1 ≠ c2 := by
  intro he
  subst he
  rw [fbequal_refl c1] at h
  cases h

theorem fbequal_false_of_ne {c1 c2 : Content} (h : c1 ≠ c2) :
    _fbequal c1 c2 = false := by
  cases hb : _fbequal c1 c2 with
  | false => rfl
  | true => exact absurd ((fbequal_eq_iff c1 c2).mp hb) h

theorem uniq_loop_mem {α : Type} [DecidableEq α] :
    ∀ (l acc : List α) (x : α), x ∈ _uniq_loop acc l ↔ x ∈ acc ∨ x ∈ l
  | [], acc, x => by simp [_uniq_loop]
  | foo :: rest, acc, x => by
    simp only [_uniq_loop]
    by_cases h : foo ∈ acc
    · rw [if_pos h, uniq_loop_mem rest acc x]
      simp only [List.mem_cons]
      constructor
      · rintro (hx | hx)
        · exact Or.inl hx
        · exact Or.inr (Or.inr hx)
      · rintro (hx | hx | hx)
        · exact Or.inl hx
        · exact Or.inl (by rw [hx]; exact h)
        · exact Or.inr hx
    · rw [if_neg h, uniq_loop_mem rest (acc ++ [foo]) x]
      simp only [List.mem_append, List.mem_cons, List.mem_singleton]
      tauto

theorem uniq_loop_nodup {α : Type} [DecidableEq α] :
    ∀ (l acc : List α), acc.Nodup → (_uniq_loop acc l).Nodup
  | [], acc, h => by simpa [_uniq_loop] using h
  | foo :: rest, acc, h => by
    simp only [_uniq_loop]
    by_cases hm : foo ∈ acc
    · rw [if_pos hm]
      exact uniq_loop_nodup rest acc h
    · rw [if_neg hm]
      refine uniq_loop_nodup rest (acc ++ [foo]) ?_
      rw [List.nodup_append]
      refine ⟨h, List.nodup_singleton foo, ?_⟩
      intro a ha hb
      rw [List.mem_singleton] at hb
      exact hm (hb ▸ ha)

theorem uniq_loop_sublist {α : Type} [DecidableEq α] :
    ∀ (l acc : List α), ∃ s, _uniq_loop acc l = acc ++ s ∧ s.Sublist l
  | [], acc => ⟨[], by simp [_uniq_loop]⟩
  | foo :: rest, acc => by
    simp only [_uniq_loop]
    by_cases hm : foo ∈ acc
    · rw [if_pos hm]
      obtain ⟨s, hs, hsub⟩ := uniq_loop_sublist rest acc
      exact ⟨s, hs, hsub.trans (List.sublist_cons_self foo rest)⟩
    · rw [if_neg hm]
      obtain ⟨s, hs, hsub⟩ := uniq_loop_sublist rest (acc ++ [foo])
      exact ⟨foo :: s, by rw [hs, List.append_assoc]; rfl, List.Sublist.cons₂ foo hsub⟩

theorem uniq_nodup {α : Type} [DecidableEq α] (l : List α) : (_uniq_list l).Nodup :=
  uniq_loop_nodup l [] List.nodup_nil

theorem uniq_sublist {α : Type} [DecidableEq α] (l : List α) :
    (_uniq_list l).Sublist l := by
  obtain ⟨s, hs, hsub⟩ := uniq_loop_sublist l ([] : List α)
  unfold _uniq_list
  rw [hs]
  simpa using hsub

theorem mem_uniq {α : Type} [DecidableEq α] (l : List α) (x : α) :
    x ∈ _uniq_list l ↔ x ∈ l := by
  unfold _uniq_list
  rw [uniq_loop_mem]
  simp

theorem mem_finalize (d : Index) (k : Fingerprint) (l : List Path) :
    (k, l) ∈ finalize d ↔ ∃ v, (k, v) ∈ d ∧ l = _uniq_list v ∧ 1 < l.length := by
  unfold finalize
  rw [List.mem_filter]
  simp only [List.mem_map, decide_eq_true_eq]
  constructor
  · rintro ⟨⟨kv, hkv, heq⟩, hlen⟩
    obtain ⟨h1, h2⟩ := Prod.mk.injEq .. ▸ heq
    exact ⟨kv.2, by rw [← h1]; exact hkv, h2.symm, hlen⟩
  · rintro ⟨v, hv, hl, hlen⟩
    exact ⟨⟨(k, v), hv, by rw [hl]⟩, hlen⟩

theorem hasKey_false_lookup :
    ∀ (d : Index) (k : Fingerprint), hasKey d k = false → lookupGroup d k = []
  | [], _, _ => rfl
  | (k1, v) :: rest, k, h => by
    simp only [hasKey] at h
    simp only [lookupGroup]
    by_cases he : k1 = k
    · rw [if_pos he] at h
      cases h
    · rw [if_neg he] at h
      rw [if_neg he]
      exact hasKey_false_lookup rest k h

theorem lookup_append_fresh :
    ∀ (d : Index) (k2 k : Fingerprint), hasKey d k2 = false →
      lookupGroup (d ++ [(k2, [])]) k = lookupGroup d k
  | [], k2, k, _ => by
    simp only [List.nil_append, lookupGroup]
    split <;> rfl
  | (k1, v) :: rest, k2, k, h => by
    simp only [hasKey] at h
    by_cases h1 : k1 = k2
    · rw [if_pos h1] at h
      cases h
    · rw [if_neg h1] at h
      simp only [List.cons_append, lookupGroup]
      by_cases h2 : k1 = k
      · rw [if_pos h2, if_pos h2]
      · rw [if_neg h2, if_neg h2]
        exact lookup_append_fresh rest k2 k h

theorem lookup_touchKey (d : Index) (k2 k : Fingerprint) :
    lookupGroup (touchKey d k2) k = lookupGroup d k := by
  unfold touchKey
  by_cases h : hasKey d k2 = true
  · rw [if_pos h]
  · rw [if_neg h]
    exact lookup_append_fresh d k2 k (Bool.eq_false_iff.mpr h)

theorem lookup_appendGroup_same :
    ∀ (d : Index) (k : Fingerprint) (q : Path),
      lookupGroup (appendGroup d k q) k = lookupGroup d k ++ [q]
  | [], k, q => by simp [appendGroup, lookupGroup]
  | (k1, v) :: rest, k, q => by
    simp only [appendGroup]
    by_cases h : k1 = k
    · rw [if_pos h]
      simp only [lookupGroup]
      rw [if_pos h, if_pos h]
    · rw [if_neg h]
      simp only [lookupGroup]
      rw [if_neg h, if_neg h]
      exact lookup_appendGroup_same rest k q

theorem lookup_appendGroup_ne :
    ∀ (d : Index) (k2 k : Fingerprint) (q : Path), k ≠ k2 →
      lookupGroup (appendGroup d k2 q) k = lookupGroup d k
  | [], k2, k, q, h => by
    simp only [appendGroup, lookupGroup]
    rw [if_neg (fun he => h he.symm)]
  | (k1, v) :: rest, k2, k, q, h => by
    simp only [appendGroup]
    by_cases h1 : k1 = k2
    · rw [if_pos h1]
      simp only [lookupGroup]
      have hne : ¬ k1 = k := fun he => h (he.symm.trans h1)
      rw [if_neg hne, if_neg hne]
    · rw [if_neg h1]
      simp only [lookupGroup]
      by_cases h2 : k1 = k
      · rw [if_pos h2, if_pos h2]
      · rw [if_neg h2, if_neg h2]
        exact lookup_appendGroup_ne rest k2 k q h

theorem mem_touchKey (d : Index) (k2 : Fingerprint) (p : Fingerprint × List Path)
    (hp : p ∈ touchKey d k2) : p ∈ d ∨ p.2 = [] := by
  unfold touchKey at hp
  by_cases h : hasKey d k2 = true
  · rw [if_pos h] at hp
    exact Or.inl hp
  · rw [if_neg h] at hp
    rcases List.mem_append.mp hp with h1 | h1
    · exact Or.inl h1
    · right
      rw [List.mem_singleton] at h1
      rw [h1]

theorem mem_appendGroup :
    ∀ (d : Index) (k2 : Fingerprint) (q : Path) (k3 : Fingerprint) (v3 : List Path),
      (k3, v3) ∈ appendGroup d k2 q →
        (k3, v3) ∈ d ∨ (k3 = k2 ∧ (v3 = [q] ∨ ∃ v, (k3, v) ∈ d ∧ v3 = v ++ [q]))
  | [], k2, q, k3, v3 => by
    intro h
    simp only [appendGroup, List.mem_singleton, Prod.mk.injEq] at h
    exact Or.inr ⟨h.1, Or.inl h.2⟩
  | (k1, v) :: rest, k2, q, k3, v3 => by
    intro h
    simp only [appendGroup] at h
    by_cases he : k1 = k2
    · rw [if_pos he] at h
      rcases List.mem_cons.mp h with h1 | h1
      · have hk : k3 = k1 := congrArg Prod.fst h1
        have hv : v3 = v ++ [q] := congrArg Prod.snd h1
        refine Or.inr ⟨hk.trans he, Or.inr ⟨v, ?_, hv⟩⟩
        rw [hk]
        exact List.mem_cons_self _ _
      · exact Or.inl (List.mem_cons_of_mem _ h1)
    · rw [if_neg he] at h
      rcases List.mem_cons.mp h with h1 | h1
      · exact Or.inl (by rw [h1]; exact List.mem_cons_self _ _)
      · rcases mem_appendGroup rest k2 q k3 v3 h1 with h2 | ⟨hk, h3⟩
        · exact Or.inl (List.mem_cons_of_mem _ h2)
        · rcases h3 with h3 | ⟨v0, hv0, h4⟩
          · exact Or.inr ⟨hk, Or.inl h3⟩
          · exact Or.inr ⟨hk, Or.inr ⟨v0, List.mem_cons_of_mem _ hv0, h4⟩⟩

theorem hasKey_iff_mem_keys :
    ∀ (d : Index) (k : Fingerprint), hasKey d k = true ↔ k ∈ d.map Prod.fst
  | [], k => by simp [hasKey]
  | (k1, v) :: rest, k => by
    simp only [hasKey, List.map_cons, List.mem_cons]
    by_cases he : k1 = k
    · rw [if_pos he]
      simp [he]
    · rw [if_neg he]
      rw [hasKey_iff_mem_keys rest k]
      constructor
      · exact fun h => Or.inr h
      · rintro (h | h)
        · exact absurd h.symm he
        · exact h

theorem hasKey_touchKey (d : Index) (k : Fingerprint) :
    hasKey (touchKey d k) k = true := by
  unfold touchKey
  by_cases h : hasKey d k = true
  · rw [if_pos h]
    exact h
  · rw [if_neg h]
    rw [hasKey_iff_mem_keys]
    simp

theorem keys_appendGroup_hasKey :
    ∀ (d : Index) (k : Fingerprint) (q : Path), hasKey d k = true →
      (appendGroup d k q).map Prod.fst = d.map Prod.fst
  | [], k, q, h => by cases h
  | (k1, v) :: rest, k, q, h => by
    simp only [hasKey] at h
    simp only [appendGroup]
    by_cases he : k1 = k
    · rw [if_pos he]
      simp
    · rw [if_neg he] at h
      rw [if_neg he]
      simp only [List.map_cons]
      rw [keys_appendGroup_hasKey rest k q h]

theorem keys_nodup_touchKey (d : Index) (k : Fingerprint)
    (h : (d.map Prod.fst).Nodup) : ((touchKey d k).map Prod.fst).Nodup := by
  unfold touchKey
  by_cases hk : hasKey d k = true
  · rw [if_pos hk]
    exact h
  · rw [if_neg hk]
    have hnm : k ∉ d.map Prod.fst := fun hm => hk ((hasKey_iff_mem_keys d k).mpr hm)
    rw [List.map_append, List.nodup_append]
    refine ⟨h, by simp, ?_⟩
    intro a ha hb
    simp only [List.map_cons, List.map_nil, List.mem_singleton] at hb
    exact hnm (hb ▸ ha)

theorem keys_nodup_dupsStep (fs : Path → Content) (hashalgs : List HashAlg)
    (safe_mode : Bool) (d : Index) (q : Path)
    (h : (d.map Prod.fst).Nodup) :
    ((dupsStep fs hashalgs safe_mode d q).map Prod.fst).Nodup := by
  unfold dupsStep
  by_cases hfe :
      files_equals fs safe_mode (lookupGroup d (fingerprintOf fs hashalgs q)) q = true
  · rw [if_pos hfe]
    rw [keys_appendGroup_hasKey _ _ q (hasKey_touchKey d (fingerprintOf fs hashalgs q))]
    exact keys_nodup_touchKey d _ h
  · rw [if_neg hfe]
    exact keys_nodup_touchKey d _ h

theorem lookup_eq_of_mem :
    ∀ (d : Index), (d.map Prod.fst).Nodup →
      ∀ (k : Fingerprint) (v : List Path), (k, v) ∈ d → lookupGroup d k = v
  | [], _, k, v, hm => by cases hm
  | (k1, v1) :: rest, hnd, k, v, hm => by
    simp only [List.map_cons, List.nodup_cons] at hnd
    rcases List.mem_cons.mp hm with h1 | h1
    · have hk : k = k1 := congrArg Prod.fst h1
      have hv : v = v1 := congrArg Prod.snd h1
      simp only [lookupGroup]
      rw [if_pos hk.symm, hv]
    · have hne : k1 ≠ k := by
        intro he
        apply hnd.1
        have : k ∈ rest.map Prod.fst := List.mem_map.mpr ⟨(k, v), h1, rfl⟩
        rw [he]
        exact this
      simp only [lookupGroup]
      rw [if_neg hne]
      exact lookup_eq_of_mem rest hnd.2 k v h1

theorem lookup_mem :
    ∀ (d : Index) (k : Fingerprint),
      lookupGroup d k = [] ∨ (k, lookupGroup d k) ∈ d
  | [], k => Or.inl rfl
  | (k1, v) :: rest, k => by
    simp only [lookupGroup]
    by_cases h : k1 = k
    · rw [if_pos h]
      right
      rw [← h]
      exact List.mem_cons_self _ _
    · rw [if_neg h]
      rcases lookup_mem rest k with h1 | h1
      · exact Or.inl h1
      · exact Or.inr (List.mem_cons_of_mem _ h1)

theorem mem_lookup_exists (d : Index) (k : Fingerprint) (f : Path)
    (hf : f ∈ lookupGroup d k) : ∃ v, (k, v) ∈ d ∧ f ∈ v := by
  rcases lookup_mem d k with h | h
  · rw [h] at hf
    cases hf
  · exact ⟨lookupGroup d k, h, hf⟩

theorem scan_append (fs : Path → Content) (hashalgs : List HashAlg) (safe_mode : Bool) :
    ∀ (a b : List Path) (d : Index),
      scan fs hashalgs safe_mode d (a ++ b)
        = scan fs hashalgs safe_mode (scan fs hashalgs safe_mode d a) b
  | [], b, d => rfl
  | x :: a, b, d => by
    simp only [List.cons_append, scan]
    exact scan_append fs hashalgs safe_mode a b (dupsStep fs hashalgs safe_mode d x)

theorem scan_preserve (fs : Path → Content) (hashalgs : List HashAlg) (safe_mode : Bool)
    (P : Index → Prop)
    (hstep : ∀ d q, P d → P (dupsStep fs hashalgs safe_mode d q)) :
    ∀ (files : List Path) (d : Index), P d → P (scan fs hashalgs safe_mode d files)
  | [], _, h => h
  | q :: rest, d, h =>
    scan_preserve fs hashalgs safe_mode P hstep rest
      (dupsStep fs hashalgs safe_mode d q) (hstep d q h)

theorem files_equals_true_safe (fs : Path → Content) (dup_files : List Path)
    (fpath : Path) (hne : dup_files ≠ [])
    (h : files_equals fs true dup_files fpath = true) :
    ∃ f ∈ dup_files, _fbequal (fs f) (fs fpath) = true := by
  unfold files_equals at h
  cases dup_files with
  | nil => exact absurd rfl hne
  | cons a rest =>
    simp only [if_pos rfl] at h
    exact List.any_eq_true.mp h

theorem files_equals_false_of_all (fs : Path → Content) (dup_files : List Path)
    (fpath : Path) (hne : dup_files ≠ [])
    (h : ∀ f ∈ dup_files, _fbequal (fs f) (fs fpath) = false) :
    files_equals fs true dup_files fpath = false := by
  unfold files_equals
  cases dup_files with
  | nil => exact absurd rfl hne
  | cons a rest =>
    rw [if_pos rfl]
    show (a :: rest).any (fun f => _fbequal (fs f) (fs fpath)) = false
    rw [List.any_eq_false]
    intro f hf
    rw [h f hf]
    simp

theorem dupsStep_rejected (fs : Path → Content) (hashalgs : List HashAlg)
    (safe_mode : Bool) (d : Index) (q : Path)
    (h : files_equals fs safe_mode (lookupGroup d (fingerprintOf fs hashalgs q)) q
          = false) :
    dupsStep fs hashalgs safe_mode d q = touchKey d (fingerprintOf fs hashalgs q) := by
  unfold dupsStep
  rw [h]
  simp

/-- Structural invariant of the scan state built from the empty dict: the
keys are pairwise distinct and every member of a group has that group's
fingerprint. -/
theorem scan_wf (fs : Path → Content) (hashalgs : List HashAlg) (safe_mode : Bool)
    (files : List Path) :
    ((scan fs hashalgs safe_mode [] files).map Prod.fst).Nodup
    ∧ ∀ k v, (k, v) ∈ scan fs hashalgs safe_mode [] files →
        ∀ f ∈ v, fingerprintOf fs hashalgs f = k := by
  refine scan_preserve fs hashalgs safe_mode
    (fun d => (d.map Prod.fst).Nodup
      ∧ ∀ k v, (k, v) ∈ d → ∀ f ∈ v, fingerprintOf fs hashalgs f = k)
    ?_ files [] ⟨List.nodup_nil, by intro k v hv; cases hv⟩
  intro d q hP
  refine ⟨keys_nodup_dupsStep fs hashalgs safe_mode d q hP.1, ?_⟩
  intro k v hkv f hf
  unfold dupsStep at hkv
  by_cases hfe :
      files_equals fs safe_mode (lookupGroup d (fingerprintOf fs hashalgs q)) q = true
  · rw [if_pos hfe] at hkv
    rcases mem_appendGroup _ _ _ _ _ hkv with h1 | ⟨hk, h2⟩
    · rcases mem_touchKey d _ _ h1 with h3 | h3
      · exact hP.2 k v h3 f hf
      · simp only at h3
        rw [h3] at hf
        cases hf
    · rcases h2 with h2 | ⟨v0, hv0, h2⟩
      · rw [h2, List.mem_singleton] at hf
        rw [hf, hk]
      · rw [h2, List.mem_append] at hf
        rcases hf with hf | hf
        · rcases mem_touchKey d _ _ hv0 with h3 | h3
          · exact hP.2 k v0 h3 f hf
          · simp only at h3
            rw [h3] at hf
            cases hf
        · rw [List.mem_singleton] at hf
          rw [hf, hk]
  · rw [if_neg hfe] at hkv
    rcases mem_touchKey d _ _ hkv with h3 | h3
    · exact hP.2 k v h3 f hf
    · simp only at h3
      rw [h3] at hf
      cases hf

/-- Claim C4: for every pair of readable files, _fbequal returns true if
and only if the two files have equal length and identical bytes at every
position; in particular it returns false whenever one file is a proper
prefix of the other. -/
theorem fbequal_correct :
    (∀ c1 c2 : Content,
      _fbequal c1 c2 = true
        ↔ (c1.length = c2.length
            ∧ ∀ (i : Nat) (h1 : i < c1.length) (h2 : i < c2.length),
                c1.get ⟨i, h1⟩ = c2.get ⟨i, h2⟩))
    ∧ (∀ (c ext : Content), ext ≠ [] →
        _fbequal c (c ++ ext) = false ∧ _fbequal (c ++ ext) c = false) := by
  constructor
  · intro c1 c2
    rw [fbequal_eq_iff]
    constructor
    · intro h
      subst h
      exact ⟨rfl, fun i h1 h2 => rfl⟩
    · intro ⟨hlen, hget⟩
      exact List.ext_get hlen hget
  · intro c ext hne
    have hdiff : (c : Content) ≠ c ++ ext := by
      intro h
      have hl := congrArg List.length h
      rw [List.length_append] at hl
      have : ext.length = 0 := by omega
      exact hne (List.length_eq_zero.mp this)
    exact ⟨fbequal_false_of_ne hdiff, fbequal_false_of_ne (fun h => hdiff h.symm)⟩

/-- Witness for C4 on concrete inputs: a strict prefix compares unequal. -/
theorem fbequal_correct_witness : _fbequal [1, 2] ([1, 2] ++ [3]) = false :=
  (fbequal_correct.2 [1, 2] [3] (by decide)).1

/-- Claim C5: the mapping returned by file_dups contains exactly the
fingerprints whose deduplicated member list has two or more entries, and
each retained value is that group's unique member list in discovery order
(it has no duplicates and is an order-preserving sublist of the raw
discovery-ordered group). -/
theorem file_dups_result_characterization :
    ∀ (fs : Path → Content) (files : List Path) (hashalgs : List HashAlg)
      (safe_mode : Bool) (k : Fingerprint) (l : List Path),
      (k, l) ∈ file_dups_scan fs files hashalgs safe_mode
        ↔ ∃ v, (k, v) ∈ scan fs hashalgs safe_mode [] files
            ∧ l = _uniq_list v ∧ 1 < l.length ∧ l.Nodup ∧ l.Sublist v := by
  intro fs files hashalgs safe_mode k l
  unfold file_dups_scan
  rw [mem_finalize]
  constructor
  · rintro ⟨v, hv, hl, hlen⟩
    refine ⟨v, hv, hl, hlen, ?_, ?_⟩
    · rw [hl]
      exact uniq_nodup v
    · rw [hl]
      exact uniq_sublist v
  · rintro ⟨v, hv, hl, hlen, _, _⟩
    exact ⟨v, hv, hl, hlen⟩

/-- Counterexample to claim C3 as stated: when the enumeration yields the
same canonical path twice (a symlink and its target resolve to the same
realpath), file_dups_immediate reports a group in which that path appears
twice. -/
theorem immediate_duplicate_path_example :
    ∃ y ∈ file_dups_immediate_scan fsZero ["a", "a"] [algConst] false,
      ¬ y.2.2.Nodup := by
  decide

/-- Claim C3 as amended: in the batch scan (file_dups) no path appears
twice in any reported duplicate group, because the member lists are
deduplicated by value at finalization; the incremental scan provides no
such deduplication. -/
theorem file_dups_groups_nodup :
    ∀ (fs : Path → Content) (files : List Path) (hashalgs : List HashAlg)
      (safe_mode : Bool) (k : Fingerprint) (l : List Path),
      (k, l) ∈ file_dups_scan fs files hashalgs safe_mode → l.Nodup := by
  intro fs files hashalgs safe_mode k l h
  unfold file_dups_scan at h
  obtain ⟨v, _, hl, _⟩ := (mem_finalize _ k l).mp h
  rw [hl]
  exact uniq_nodup v

/-- Witness for the amended C3: a concrete reported group has no duplicate
path, even though its path was enumerated twice. -/
theorem file_dups_groups_nodup_witness :
    (([7], ["a", "b"]) ∈ file_dups_scan fsZero ["a", "a", "b"] [algConst] false)
    ∧ (["a", "b"] : List Path).Nodup :=
  ⟨by decide,
   file_dups_groups_nodup fsZero ["a", "a", "b"] [algConst] false [7] ["a", "b"]
     (by decide)⟩

/-- One scan step preserves the collision-exclusion invariant: once the
group of fpath's fingerprint is non-empty and every member's content
differs from fpath's content, this stays true, and fpath itself is a
member of no group. -/
theorem collision_invariant_step (fs : Path → Content) (hashalgs : List HashAlg)
    (fpath : Path) (d : Index) (q : Path)
    (h1 : lookupGroup d (fingerprintOf fs hashalgs fpath) ≠ [])
    (h2 : ∀ f ∈ lookupGroup d (fingerprintOf fs hashalgs fpath), fs f ≠ fs fpath)
    (h3 : ∀ k2 v, (k2, v) ∈ d → fpath ∉ v) :
    (lookupGroup (dupsStep fs hashalgs true d q) (fingerprintOf fs hashalgs fpath) ≠ [])
    ∧ (∀ f ∈ lookupGroup (dupsStep fs hashalgs true d q)
          (fingerprintOf fs hashalgs fpath), fs f ≠ fs fpath)
    ∧ (∀ k2 v, (k2, v) ∈ dupsStep fs hashalgs true d q → fpath ∉ v) := by
  have hqp : ∀ hq : q = fpath,
      files_equals fs true (lookupGroup d (fingerprintOf fs hashalgs q)) q = false := by
    intro hq
    subst hq
    exact files_equals_false_of_all fs _ q h1
      (fun f hf => fbequal_false_of_ne (h2 f hf))
  unfold dupsStep
  by_cases hfe :
      files_equals fs true (lookupGroup d (fingerprintOf fs hashalgs q)) q = true
  · rw [if_pos hfe]
    have hqne : q ≠ fpath := by
      intro hq
      rw [hqp hq] at hfe
      cases hfe
    by_cases hkk : fingerprintOf fs hashalgs fpath = fingerprintOf fs hashalgs q
    · -- q joins the group of fpath's fingerprint
      rw [← hkk] at hfe ⊢
      rw [lookup_appendGroup_same, lookup_touchKey]
      have hmem : ∃ f0 ∈ lookupGroup d (fingerprintOf fs hashalgs fpath),
          _fbequal (fs f0) (fs q) = true :=
        files_equals_true_safe fs _ q h1 hfe
      refine ⟨by simp, ?_, ?_⟩
      · intro f hf
        rcases List.mem_append.mp hf with hf | hf
        · exact h2 f hf
        · rw [List.mem_singleton] at hf
          subst hf
          obtain ⟨f0, hf0, hb⟩ := hmem
          have : fs f0 = fs f := (fbequal_eq_iff _ _).mp hb
          rw [← this]
          exact h2 f0 hf0
      · intro k2 v hkv hmv
        rcases mem_appendGroup _ _ _ _ _ hkv with hin | ⟨_, hin⟩
        · rcases mem_touchKey d _ _ hin with hin2 | hin2
          · exact h3 k2 v hin2 hmv
          · simp only at hin2
            rw [hin2] at hmv
            cases hmv
        · rcases hin with hin | ⟨v0, hv0, hin⟩
          · rw [hin, List.mem_singleton] at hmv
            exact hqne hmv.symm
          · rw [hin, List.mem_append] at hmv
            rcases hmv with hmv | hmv
            · rcases mem_touchKey d _ _ hv0 with hin2 | hin2
              · exact h3 k2 v0 hin2 hmv
              · simp only at hin2
                rw [hin2] at hmv
                cases hmv
            · rw [List.mem_singleton] at hmv
              exact hqne hmv.symm
    · -- q belongs to a different fingerprint group
      rw [lookup_appendGroup_ne _ _ _ _ hkk, lookup_touchKey]
      refine ⟨h1, h2, ?_⟩
      intro k2 v hkv hmv
      rcases mem_appendGroup _ _ _ _ _ hkv with hin | ⟨_, hin⟩
      · rcases mem_touchKey d _ _ hin with hin2 | hin2
        · exact h3 k2 v hin2 hmv
        · simp only at hin2
          rw [hin2] at hmv
          cases hmv
      · rcases hin with hin | ⟨v0, hv0, hin⟩
        · rw [hin, List.mem_singleton] at hmv
          exact hqne hmv.symm
        · rw [hin, List.mem_append] at hmv
          rcases hmv with hmv | hmv
          · rcases mem_touchKey d _ _ hv0 with hin2 | hin2
            · exact h3 k2 v0 hin2 hmv
            · simp only at hin2
              rw [hin2] at hmv
              cases hmv
          · rw [List.mem_singleton] at hmv
            exact hqne hmv.symm
  · rw [if_neg hfe]
    rw [lookup_touchKey]
    refine ⟨h1, h2, ?_⟩
    intro k2 v hkv hmv
    rcases mem_touchKey d _ _ hkv with hin | hin
    · exact h3 k2 v hin hmv
    · simp only at hin
      rw [hin] at hmv
      cases hmv

/-- Claim C2: in safe mode, a scanned file whose fingerprint matches a
non-empty existing group but which is byte-equal to none of the group's
current members is not appended to that group (all groups are left
unchanged by its step), is absent from every group of the scan's final
result, and the scan continues with the remaining files. -/
theorem safe_mode_collision_excluded (fs : Path → Content) (hashalgs : List HashAlg)
    (pre post : List Path) (fpath : Path)
    (h1 : lookupGroup (scan fs hashalgs true [] pre)
            (fingerprintOf fs hashalgs fpath) ≠ [])
    (h2 : ∀ f ∈ lookupGroup (scan fs hashalgs true [] pre)
            (fingerprintOf fs hashalgs fpath),
          _fbequal (fs f) (fs fpath) = false) :
    (∀ k2, lookupGroup
        (dupsStep fs hashalgs true (scan fs hashalgs true [] pre) fpath) k2
        = lookupGroup (scan fs hashalgs true [] pre) k2)
    ∧ (∀ k2 l, (k2, l) ∈ file_dups_scan fs (pre ++ fpath :: post) hashalgs true →
        fpath ∉ l)
    ∧ scan fs hashalgs true [] (pre ++ fpath :: post)
        = scan fs hashalgs true
            (dupsStep fs hashalgs true (scan fs hashalgs true [] pre) fpath) post := by
  have hfe : files_equals fs true
      (lookupGroup (scan fs hashalgs true [] pre) (fingerprintOf fs hashalgs fpath))
      fpath = false :=
    files_equals_false_of_all fs _ fpath h1 h2
  have hstep : dupsStep fs hashalgs true (scan fs hashalgs true [] pre) fpath
      = touchKey (scan fs hashalgs true [] pre) (fingerprintOf fs hashalgs fpath) :=
    dupsStep_rejected fs hashalgs true _ fpath hfe
  have hwf := scan_wf fs hashalgs true pre
  -- fpath is in no group of the state reached after the pre-scan
  have hnot : ∀ k2 v, (k2, v) ∈ scan fs hashalgs true [] pre → fpath ∉ v := by
    intro k2 v hkv hmv
    have hk2 : fingerprintOf fs hashalgs fpath = k2 := hwf.2 k2 v hkv fpath hmv
    have hv : lookupGroup (scan fs hashalgs true [] pre) k2 = v :=
      lookup_eq_of_mem _ hwf.1 k2 v hkv
    have hmem : fpath ∈ lookupGroup (scan fs hashalgs true [] pre)
        (fingerprintOf fs hashalgs fpath) := by
      rw [hk2, hv]
      exact hmv
    have := h2 fpath hmem
    rw [fbequal_refl (fs fpath)] at this
    cases this
  have hsplit : scan fs hashalgs true [] (pre ++ fpath :: post)
      = scan fs hashalgs true
          (dupsStep fs hashalgs true (scan fs hashalgs true [] pre) fpath) post := by
    rw [scan_append]
    rfl
  refine ⟨?_, ?_, hsplit⟩
  · intro k2
    rw [hstep, lookup_touchKey]
  · -- invariant through the rest of the scan, then through finalization
    have hinv :
        (lookupGroup (scan fs hashalgs true
            (dupsStep fs hashalgs true (scan fs hashalgs true [] pre) fpath) post)
          (fingerprintOf fs hashalgs fpath) ≠ [])
        ∧ (∀ f ∈ lookupGroup (scan fs hashalgs true
              (dupsStep fs hashalgs true (scan fs hashalgs true [] pre) fpath) post)
            (fingerprintOf fs hashalgs fpath), fs f ≠ fs fpath)
        ∧ (∀ k2 v, (k2, v) ∈ scan fs hashalgs true
              (dupsStep fs hashalgs true (scan fs hashalgs true [] pre) fpath) post →
            fpath ∉ v) := by
      refine scan_preserve fs hashalgs true
        (fun d => (lookupGroup d (fingerprintOf fs hashalgs fpath) ≠ [])
          ∧ (∀ f ∈ lookupGroup d (fingerprintOf fs hashalgs fpath), fs f ≠ fs fpath)
          ∧ (∀ k2 v, (k2, v) ∈ d → fpath ∉ v))
        (fun d q hP => collision_invariant_step fs hashalgs fpath d q hP.1 hP.2.1 hP.2.2)
        post _ ?_
      rw [hstep]
      refine ⟨?_, ?_, ?_⟩
      · rw [lookup_touchKey]
        exact h1
      · rw [lookup_touchKey]
        exact fun f hf => ne_of_fbequal_false (h2 f hf)
      · intro k2 v hkv hmv
        rcases mem_touchKey _ _ _ hkv with hin | hin
        · exact hnot k2 v hin hmv
        · simp only at hin
          rw [hin] at hmv
          cases hmv
    intro k2 l hl hml
    unfold file_dups_scan at hl
    rw [hsplit] at hl
    obtain ⟨v, hv, hlv, _⟩ := (mem_finalize _ k2 l).mp hl
    rw [hlv, mem_uniq] at hml
    exact hinv.2.2 k2 v hv hml

/-- Witness for C2: with a constant hash, path b collides with the group
of path a but has different bytes; its step leaves that group unchanged. -/
theorem safe_mode_collision_excluded_witness :
    lookupGroup (dupsStep fsTwo [algConst] true (scan fsTwo [algConst] true [] ["a"]) "b")
        (fingerprintOf fsTwo [algConst] "b")
      = lookupGroup (scan fsTwo [algConst] true [] ["a"])
          (fingerprintOf fsTwo [algConst] "b") :=
  (safe_mode_collision_excluded fsTwo [algConst] ["a"] [] "b" (by decide) (by decide)).1
    (fingerprintOf fsTwo [algConst] "b")

/-- file_dups_immediate maintains the same internal dict as the batch
loop: the state part of its step is exactly the batch step. -/
theorem immediateStep_fst (fs : Path → Content) (hashalgs : List HashAlg)
    (safe_mode : Bool) (d : Index) (fpath : Path) :
    (immediateStep fs hashalgs safe_mode d fpath).1
      = dupsStep fs hashalgs safe_mode d fpath := by
  unfold immediateStep dupsStep
  by_cases hfe :
      files_equals fs safe_mode (lookupGroup d (fingerprintOf fs hashalgs fpath)) fpath
        = true
  · rw [if_pos hfe, if_pos hfe]
  · rw [if_neg hfe, if_neg hfe]

/-- The yield part of one immediate-scan step: a tuple is yielded exactly
when the file is accepted and its group already had a member, and the
yielded member list is the group before the step with the new file
appended. -/
theorem immediateStep_snd (fs : Path → Content) (hashalgs : List HashAlg)
    (safe_mode : Bool) (d : Index) (fpath : Path) :
    (immediateStep fs hashalgs safe_mode d fpath).2
      = if files_equals fs safe_mode
            (lookupGroup d (fingerprintOf fs hashalgs fpath)) fpath = true
          ∧ lookupGroup d (fingerprintOf fs hashalgs fpath) ≠ []
        then [(fpath, fingerprintOf fs hashalgs fpath,
               lookupGroup d (fingerprintOf fs hashalgs fpath) ++ [fpath])]
        else [] := by
  unfold immediateStep
  by_cases hfe :
      files_equals fs safe_mode (lookupGroup d (fingerprintOf fs hashalgs fpath)) fpath
        = true
  · rw [if_pos hfe]
    by_cases hne : lookupGroup d (fingerprintOf fs hashalgs fpath) = []
    · rw [if_neg (by rw [hne]; simp), if_neg (fun hc => hc.2 hne)]
    · rw [if_pos (by
          rcases hl : lookupGroup d (fingerprintOf fs hashalgs fpath) with _ | ⟨a, r⟩
          · exact absurd hl hne
          · simp),
        if_pos ⟨hfe, hne⟩]
      rw [lookup_appendGroup_same, lookup_touchKey]
  · rw [if_neg hfe]
    rw [if_neg (fun hc => hfe hc.1)]

/-- The immediate scan splits along any decomposition of the enumeration,
with the state advanced by the batch scan of the processed part. -/
theorem immediateScan_append (fs : Path → Content) (hashalgs : List HashAlg)
    (safe_mode : Bool) :
    ∀ (pre post : List Path) (d : Index),
      immediateScan fs hashalgs safe_mode d (pre ++ post)
        = immediateScan fs hashalgs safe_mode d pre
          ++ immediateScan fs hashalgs safe_mode
              (scan fs hashalgs safe_mode d pre) post
  | [], post, d => rfl
  | x :: pre, post, d => by
    show (immediateStep fs hashalgs safe_mode d x).2
        ++ immediateScan fs hashalgs safe_mode
            (immediateStep fs hashalgs safe_mode d x).1 (pre ++ post)
      = ((immediateStep fs hashalgs safe_mode d x).2
          ++ immediateScan fs hashalgs safe_mode
              (immediateStep fs hashalgs safe_mode d x).1 pre)
        ++ immediateScan fs hashalgs safe_mode
            (scan fs hashalgs safe_mode (dupsStep fs hashalgs safe_mode d x) pre) post
    rw [immediateScan_append fs hashalgs safe_mode pre post _, immediateStep_fst,
      List.append_assoc]

/-- Claim C6: the incremental scan yields a tuple (path, fingerprint,
currentGroupMembers) exactly when a scanned file is accepted as the second
or later member of its fingerprint's group, with the newly found file
included in the yielded member list; a file accepted as a group's first
member or rejected by safe mode yields nothing, and the internal dict
evolves exactly as in the batch scan while the walk continues. -/
theorem immediate_yield_characterization :
    ∀ (fs : Path → Content) (hashalgs : List HashAlg) (safe_mode : Bool)
      (dups : Index) (fpath : Path),
      ((immediateStep fs hashalgs safe_mode dups fpath).2
        = if files_equals fs safe_mode
              (lookupGroup dups (fingerprintOf fs hashalgs fpath)) fpath = true
            ∧ lookupGroup dups (fingerprintOf fs hashalgs fpath) ≠ []
          then [(fpath, fingerprintOf fs hashalgs fpath,
                 lookupGroup dups (fingerprintOf fs hashalgs fpath) ++ [fpath])]
          else [])
      ∧ ((immediateStep fs hashalgs safe_mode dups fpath).1
          = dupsStep fs hashalgs safe_mode dups fpath)
      ∧ (∀ pre post : List Path,
          immediateScan fs hashalgs safe_mode dups (pre ++ post)
            = immediateScan fs hashalgs safe_mode dups pre
              ++ immediateScan fs hashalgs safe_mode
                  (scan fs hashalgs safe_mode dups pre) post) :=
  fun fs hashalgs safe_mode dups fpath =>
    ⟨immediateStep_snd fs hashalgs safe_mode dups fpath,
     immediateStep_fst fs hashalgs safe_mode dups fpath,
     fun pre post => immediateScan_append fs hashalgs safe_mode pre post dups⟩

theorem keepLoop_found (s : String) :
    ∀ l : List Path, keepLoop s true l = (true, l)
  | [] => rfl
  | f :: rest => by
    simp only [keepLoop, Bool.not_true, Bool.and_false]
    rw [keepLoop_found s rest]
    simp

theorem keepLoop_eraseP (s : String) :
    ∀ l : List Path,
      keepLoop s false l
        = (l.any (fun f => startswith s f), l.eraseP (fun f => startswith s f))
  | [] => rfl
  | f :: rest => by
    simp only [keepLoop, Bool.not_false, Bool.and_true]
    by_cases h : startswith s f = true
    · rw [if_pos h, keepLoop_found s rest, List.any_cons, h,
        List.eraseP_cons_of_pos h]
      simp
    · rw [if_neg h, keepLoop_eraseP s rest, List.any_cons,
        List.eraseP_cons_of_neg h]
      simp only [Bool.eq_false_iff.mpr h] at *
      simp [Bool.eq_false_iff.mpr h]

theorem filter_length_split {α : Type} (p : α → Bool) :
    ∀ l : List α,
      (l.filter p).length + (l.filter (fun a => !(p a))).length = l.length
  | [] => rfl
  | a :: rest => by
    by_cases h : p a = true
    · rw [List.filter_cons_of_pos h, List.filter_cons_of_neg (by simp [h])]
      simp only [List.length_cons]
      rw [← filter_length_split p rest]
      omega
    · rw [List.filter_cons_of_neg h,
        List.filter_cons_of_pos (by simp [Bool.eq_false_iff.mpr h])]
      simp only [List.length_cons]
      rw [← filter_length_split p rest]
      omega

theorem eraseP_of_filter_singleton {α : Type} (p : α → Bool) :
    ∀ l : List α, (l.filter p).length = 1 →
      l.eraseP p = l.filter (fun a => !(p a))
  | [], h => by simp at h
  | a :: rest, h => by
    by_cases ha : p a = true
    · rw [List.eraseP_cons_of_pos ha, List.filter_cons_of_neg (by simp [ha])]
      rw [List.filter_cons_of_pos ha] at h
      simp only [List.length_cons, Nat.add_eq_zero_iff] at h
      have hnil : rest.filter p = [] := List.length_eq_zero.mp (by omega)
      have hall : ∀ x ∈ rest, ¬ p x = true := List.filter_eq_nil_iff.mp hnil
      symm
      rw [List.filter_eq_self]
      intro x hx
      simp [Bool.eq_false_iff.mpr (hall x hx)]
    · rw [List.eraseP_cons_of_neg ha,
        List.filter_cons_of_pos (by simp [Bool.eq_false_iff.mpr ha])]
      rw [List.filter_cons_of_neg ha] at h
      rw [eraseP_of_filter_singleton p rest h]

/-- Claim C7: for a finalized group and a keep-prefix matching exactly one
member, the planned extras exclude exactly that member and keep the other
N-1 members in discovery order; when no member matches, the kept file
falls back to the first-discovered member and the extras are all members
but the first. -/
theorem plan_extras_correct :
    ∀ (s : String) (files : List Path),
      (s ≠ "" → (files.filter (fun f => startswith s f)).length = 1 →
        plan_extras (some s) files = files.filter (fun f => !(startswith s f))
        ∧ (plan_extras (some s) files).length + 1 = files.length)
      ∧ ((∀ f ∈ files, startswith s f = false) →
          plan_extras (some s) files = files.drop 1) := by
  intro s files
  constructor
  · intro hs hone
    have hne : files.filter (fun f => startswith s f) ≠ [] := by
      intro h0
      rw [h0] at hone
      cases hone
    have hany : files.any (fun f => startswith s f) = true := by
      rcases hf : files.filter (fun f => startswith s f) with _ | ⟨x, r⟩
      · exact absurd hf hne
      · have hx : x ∈ files.filter (fun f => startswith s f) := by
          rw [hf]
          exact List.mem_cons_self _ _
        rw [List.mem_filter] at hx
        exact List.any_eq_true.mpr ⟨x, hx.1, hx.2⟩
    have hplan : plan_extras (some s) files
        = files.eraseP (fun f => startswith s f) := by
      show (if s = "" then files.drop 1
            else if (keepLoop s false files).1 = true then (keepLoop s false files).2
            else files.drop 1)
          = files.eraseP (fun f => startswith s f)
      rw [if_neg hs, keepLoop_eraseP s files]
      simp only [hany, if_pos]
    constructor
    · rw [hplan]
      exact eraseP_of_filter_singleton _ files hone
    · rw [hplan, eraseP_of_filter_singleton _ files hone]
      rw [← filter_length_split (fun f => startswith s f) files, hone]
      omega
  · intro hnone
    show (if s = "" then files.drop 1
          else if (keepLoop s false files).1 = true then (keepLoop s false files).2
          else files.drop 1)
        = files.drop 1
    by_cases hs : s = ""
    · rw [if_pos hs]
    · rw [if_neg hs, keepLoop_eraseP s files]
      have hany : files.any (fun f => startswith s f) = false := by
        rw [List.any_eq_false]
        intro f hf
        simp [hnone f hf]
      simp only [hany]
      rw [if_neg (by simp)]

/-- Witness for C7 on a concrete three-member group with one prefix
match. -/
theorem plan_extras_correct_witness :
    plan_extras (some "/b") ["/a/x", "/b/y", "/a/z"]
      = (["/a/x", "/b/y", "/a/z"] : List Path).filter
          (fun f => !(startswith "/b" f)) :=
  ((plan_extras_correct "/b" ["/a/x", "/b/y", "/a/z"]).1 (by decide) (by decide)).1

theorem mem_concatMap {α β : Type} (f : α → List β) :
    ∀ (l : List α) (b : β), b ∈ concatMap f l ↔ ∃ a ∈ l, b ∈ f a
  | [], b => by simp [concatMap]
  | a :: rest, b => by
    simp only [concatMap, List.mem_append, mem_concatMap f rest b, List.mem_cons]
    constructor
    · rintro (h | ⟨a2, h2, h3⟩)
      · exact ⟨a, Or.inl rfl, h⟩
      · exact ⟨a2, Or.inr h2, h3⟩
    · rintro ⟨a2, ha2 | ha2, h3⟩
      · exact Or.inl (by rw [← ha2]; exact h3)
      · exact Or.inr ⟨a2, ha2, h3⟩

theorem any_congr {α : Type} {l : List α} {p q : α → Bool}
    (h : ∀ x ∈ l, p x = q x) : l.any p = l.any q := by
  induction l with
  | nil => rfl
  | cons a rest ih =>
    simp only [List.any_cons]
    rw [h a (List.mem_cons_self _ _),
      ih (fun x hx => h x (List.mem_cons_of_mem _ hx))]

/-- Every member of a group of the post-step dict is either the file just
processed or a member of a group of that key in the pre-step dict. -/
theorem mem_dupsStep (fs : Path → Content) (hashalgs : List HashAlg) (safe_mode : Bool)
    (d : Index) (q : Path) (k : Fingerprint) (v : List Path)
    (hkv : (k, v) ∈ dupsStep fs hashalgs safe_mode d q) :
    ∀ f ∈ v, f = q ∨ ∃ v0, (k, v0) ∈ d ∧ f ∈ v0 := by
  intro f hf
  unfold dupsStep at hkv
  by_cases hc : files_equals fs safe_mode
      (lookupGroup d (fingerprintOf fs hashalgs q)) q = true
  · rw [if_pos hc] at hkv
    rcases mem_appendGroup _ _ _ _ _ hkv with hin | ⟨_, hin⟩
    · rcases mem_touchKey _ _ _ hin with h2 | h2
      · exact Or.inr ⟨v, h2, hf⟩
      · simp only at h2
        rw [h2] at hf
        cases hf
    · rcases hin with hin | ⟨v0, hv0, hin⟩
      · rw [hin, List.mem_singleton] at hf
        exact Or.inl hf
      · rw [hin, List.mem_append] at hf
        rcases hf with hf | hf
        · rcases mem_touchKey _ _ _ hv0 with h2 | h2
          · exact Or.inr ⟨v0, h2, hf⟩
          · simp only at h2
            rw [h2] at hf
            cases hf
        · rw [List.mem_singleton] at hf
          exact Or.inl hf
  · rw [if_neg hc] at hkv
    rcases mem_touchKey _ _ _ hkv with h2 | h2
    · exact Or.inr ⟨v, h2, hf⟩
    · simp only at h2
      rw [h2] at hf
      cases hf

theorem files_equals_congr (fs1 fs2 : Path → Content) (safe_mode : Bool)
    (dup_files : List Path) (q : Path)
    (hq : fs1 q = fs2 q)
    (hm : ∀ f ∈ dup_files, fs1 f = fs2 f) :
    files_equals fs1 safe_mode dup_files q = files_equals fs2 safe_mode dup_files q := by
  unfold files_equals
  cases safe_mode with
  | false => rfl
  | true =>
    cases dup_files with
    | nil => rfl
    | cons a r =>
      rw [if_pos rfl, if_pos rfl]
      show (a :: r).any (fun f => _fbequal (fs1 f) (fs1 q))
          = (a :: r).any (fun f => _fbequal (fs2 f) (fs2 q))
      apply any_congr
      intro x hx
      rw [hm x hx, hq]

/-- The scan state depends only on the contents of the enumerated files
(and of the files already recorded in the state). -/
theorem scan_congr (hashalgs : List HashAlg) (safe_mode : Bool)
    (fs1 fs2 : Path → Content) :
    ∀ (files : List Path) (d : Index),
      (∀ p ∈ files, fs1 p = fs2 p) →
      (∀ k v, (k, v) ∈ d → ∀ f ∈ v, fs1 f = fs2 f) →
      scan fs1 hashalgs safe_mode d files = scan fs2 hashalgs safe_mode d files
  | [], _, _, _ => rfl
  | q :: rest, d, hfiles, hd => by
    have hq : fs1 q = fs2 q := hfiles q (List.mem_cons_self _ _)
    have hfp : fingerprintOf fs1 hashalgs q = fingerprintOf fs2 hashalgs q := by
      unfold fingerprintOf _filehash
      rw [hq]
    have hlk : ∀ f ∈ lookupGroup d (fingerprintOf fs2 hashalgs q), fs1 f = fs2 f := by
      intro f hf
      obtain ⟨v, hv, hfv⟩ := mem_lookup_exists d _ f hf
      exact hd _ v hv f hfv
    have hstep : dupsStep fs1 hashalgs safe_mode d q
        = dupsStep fs2 hashalgs safe_mode d q := by
      unfold dupsStep
      rw [hfp, files_equals_congr fs1 fs2 safe_mode _ q hq hlk]
    have hd2 : ∀ k v, (k, v) ∈ dupsStep fs2 hashalgs safe_mode d q →
        ∀ f ∈ v, fs1 f = fs2 f := by
      intro k v hkv f hf
      rcases mem_dupsStep fs2 hashalgs safe_mode d q k v hkv f hf with h2 | ⟨v0, hv0, h2⟩
      · rw [h2]
        exact hq
      · exact hd k v0 hv0 f h2
    show scan fs1 hashalgs safe_mode (dupsStep fs1 hashalgs safe_mode d q) rest
        = scan fs2 hashalgs safe_mode (dupsStep fs2 hashalgs safe_mode d q) rest
    rw [hstep]
    exact scan_congr hashalgs safe_mode fs1 fs2 rest _
      (fun p hp => hfiles p (List.mem_cons_of_mem _ hp)) hd2

/-- Claim C9: batch scanning is deterministic and idempotent.  The scan is
a pure function of the enumerated paths and their contents: two runs over
an unchanged tree (same enumeration, contents agreeing on every enumerated
path) return equal results, and the fingerprint of every enumerated file
is the same in both runs. -/
theorem file_dups_deterministic :
    ∀ (fs1 fs2 : Path → Content) (files : List Path) (hashalgs : List HashAlg)
      (safe_mode : Bool),
      (∀ p ∈ files, fs1 p = fs2 p) →
        file_dups_scan fs1 files hashalgs safe_mode
          = file_dups_scan fs2 files hashalgs safe_mode
        ∧ ∀ p ∈ files, fingerprintOf fs1 hashalgs p = fingerprintOf fs2 hashalgs p := by
  intro fs1 fs2 files hashalgs safe_mode h
  constructor
  · unfold file_dups_scan
    rw [scan_congr hashalgs safe_mode fs1 fs2 files [] h (by intro k v hv; cases hv)]
  · intro p hp
    unfold fingerprintOf _filehash
    rw [h p hp]

/-- Witness for C9: a second filesystem state that agrees on the two
enumerated paths produces the same result. -/
theorem file_dups_deterministic_witness :
    file_dups_scan fsZero ["a", "b"] [algConst] false
      = file_dups_scan fsZeroC ["a", "b"] [algConst] false :=
  (file_dups_deterministic fsZero fsZeroC ["a", "b"] [algConst] false (by decide)).1

theorem resolve_topdirs_eq_map (realpath : String → String) :
    ∀ topdirs : List String, resolve_topdirs realpath topdirs = topdirs.map realpath
  | [] => rfl
  | d :: rest => by
    simp only [resolve_topdirs, List.map_cons]
    rw [resolve_topdirs_eq_map realpath rest]

/-- Claim C10: file_dups and file_dups_immediate canonicalize the caller's
topdirs list in place: after the call every entry has been replaced by its
realpath-resolved value (the post-call list is the realpath image of the
original, and in general differs from the original list). -/
theorem topdirs_canonicalized :
    (∀ (realpath : String → String) (walk : List String → List Path)
       (fs : Path → Content) (topdirs : List String) (hashalgs : List HashAlg)
       (safe_mode : Bool),
       (file_dups realpath walk fs topdirs hashalgs safe_mode).2 = topdirs.map realpath
       ∧ (file_dups_immediate realpath walk fs topdirs hashalgs safe_mode).2
           = topdirs.map realpath)
    ∧ (file_dups (fun _ => "r") (fun _ => []) fsZero ["x"] [algConst] false).2
        ≠ ["x"] := by
  constructor
  · intro realpath walk fs topdirs hashalgs safe_mode
    exact ⟨resolve_topdirs_eq_map realpath topdirs,
           resolve_topdirs_eq_map realpath topdirs⟩
  · decide

/-- Counterexample to claim C1 as stated: with simulate on and an absent
destination, mv_file_dups still creates the destination directory — the
mkdir at lines 328-329 is executed before the simulate flag is ever
consulted, so a directory is created even for an empty plan. -/
theorem mv_simulate_creates_dest_dir :
    Effect.mkdir "dups"
      ∈ (mv_file_dups fsZero [] [algConst] "dups" false false true none false false).1 := by
  decide

/-- Claim C1 as amended: under simulate, rm_file_dups and mv_file_dups
remove no path and move no path — their traces consist of printed messages
only — except that mv_file_dups still creates the destination directory
when it does not exist. -/
theorem simulate_only_logs :
    ∀ (fs : Path → Content) (files : List Path) (hashalgs : List HashAlg)
      (dest_dir : String) (dest_exists dest_isdir : Bool)
      (keep_pref : Option String) (verbose safe_mode : Bool),
      (∀ e ∈ rm_file_dups fs files hashalgs true keep_pref verbose safe_mode,
        ∃ s, e = Effect.msg s)
      ∧ (∀ e ∈ (mv_file_dups fs files hashalgs dest_dir dest_exists dest_isdir true
            keep_pref verbose safe_mode).1,
          (∃ s, e = Effect.msg s) ∨ e = Effect.mkdir dest_dir) := by
  intro fs files hashalgs dest_dir dest_exists dest_isdir keep_pref verbose safe_mode
  constructor
  · intro e he
    obtain ⟨de, _, hede⟩ := (mem_concatMap _ _ e).mp he
    rcases List.mem_append.mp hede with h | h
    · simp only [Bool.true_or, if_true, List.mem_singleton] at h
      exact ⟨_, h⟩
    · obtain ⟨f, _, hf⟩ := (mem_concatMap _ _ e).mp h
      rcases List.mem_append.mp hf with h2 | h2
      · simp only [Bool.true_or, if_true, List.mem_singleton] at h2
        exact ⟨_, h2⟩
      · simp at h2
  · intro e he
    have hpre : ∀ hp : e ∈ (if dest_exists then ([] : List Effect)
        else [Effect.mkdir dest_dir]),
        (∃ s, e = Effect.msg s) ∨ e = Effect.mkdir dest_dir := by
      intro hp
      by_cases hd : dest_exists = true
      · rw [if_pos hd] at hp
        cases hp
      · rw [if_neg hd, List.mem_singleton] at hp
        exact Or.inr hp
    unfold mv_file_dups at he
    by_cases hc : (if dest_exists then dest_isdir else true) = true
    · rw [if_pos hc] at he
      rcases List.mem_append.mp he with h | h
      · exact hpre h
      · obtain ⟨de, _, hede⟩ := (mem_concatMap _ _ e).mp h
        rcases List.mem_append.mp hede with h2 | h2
        · simp only [Bool.true_or, if_true, List.mem_singleton] at h2
          exact Or.inl ⟨_, h2⟩
        · obtain ⟨f, _, hf⟩ := (mem_concatMap _ _ e).mp h2
          rcases List.mem_append.mp hf with h3 | h3
          · simp only [Bool.true_or, if_true, List.mem_singleton] at h3
            exact Or.inl ⟨_, h3⟩
          · simp at h3
    · rw [if_neg hc] at he
      exact hpre he

/-- Witness for the amended C1: a concrete simulate-mode trace element of
rm_file_dups is a printed message. -/
theorem simulate_only_logs_witness :
    ∃ s, Effect.msg ("rm " ++ "b") = Effect.msg s :=
  (simulate_only_logs fsZero ["a", "b"] [algConst] "dups" true true none false false).1
    (Effect.msg ("rm " ++ "b")) (by decide)

/-- Claim C8: when the move destination exists and is not a directory,
mv_file_dups fails with the design's configuration error before touching
any file (its trace is empty, so in particular no file is relocated);
when the destination is absent it is created first — the mkdir is the
head of the trace — and no error is raised. -/
theorem mv_dest_dir_handling :
    ∀ (fs : Path → Content) (files : List Path) (hashalgs : List HashAlg)
      (dest_dir : String) (dest_isdir simulate : Bool) (keep_pref : Option String)
      (verbose safe_mode : Bool),
      mv_file_dups fs files hashalgs dest_dir true false simulate keep_pref
          verbose safe_mode
        = ([], some (SweeperError.configError (dest_dir ++ " is not a directory")))
      ∧ (∃ rest,
          (mv_file_dups fs files hashalgs dest_dir false dest_isdir simulate keep_pref
              verbose safe_mode).1
            = Effect.mkdir dest_dir :: rest)
      ∧ (mv_file_dups fs files hashalgs dest_dir false dest_isdir simulate keep_pref
          verbose safe_mode).2 = none := by
  intro fs files hashalgs dest_dir dest_isdir simulate keep_pref verbose safe_mode
  exact ⟨rfl, ⟨_, rfl⟩, rfl⟩

end Sweeper
